import Mathlib

/-!
Verification of the MATLAB-AI-Blog-Metrics repository.

The repository contains a React dashboard (`src/BlogDashboard.jsx`) that
renders statistics over a persisted `posts.json` dataset, and an ingestion
pipeline (`fetch_blog_posts.py`, described by the README and the design
spec) that discovers blog posts from RSS feeds, filters them by author and
start date, and merges view-count observations into the persisted dataset.

The pipeline script itself is not part of the source tree here; its
behaviour is modelled from the specification (each such definition is
marked `Modelled from the spec:`).  The dashboard definitions are
translated directly from `src/BlogDashboard.jsx`.
-/

/-! ## Calendar dates -/

/-- A calendar date (year, month, day); publish dates carry no
time-of-day semantics. -/
structure Date where
  year : Nat
  month : Nat
  day : Nat
deriving DecidableEq, Repr

/-- Lexicographic order on calendar dates. -/
def Date.le (a b : Date) : Prop :=
  a.year < b.year ∨
    (a.year = b.year ∧
      (a.month < b.month ∨ (a.month = b.month ∧ a.day ≤ b.day)))

instance (a b : Date) : Decidable (Date.le a b) := by
  unfold Date.le; infer_instance

theorem Date.le_total (a b : Date) : Date.le a b ∨ Date.le b a := by
  unfold Date.le; omega

theorem Date.le_trans {a b c : Date} (h₁ : Date.le a b) (h₂ : Date.le b c) :
    Date.le a c := by
  unfold Date.le at *; omega

/-! ## Data model (spec §3 / dataset file §6) -/

/-- A single (observation date, view count) pair in a post's history. -/
structure ViewHistoryPoint where
  date : Date
  views : Nat
deriving DecidableEq, Repr

/-- A persisted blog post record: `id`, `title`, `url`, `date`,
`categories`, `views`, `viewsHistory`. -/
structure Post where
  id : String
  title : String
  url : String
  date : Date
  categories : List String
  views : Nat
  viewsHistory : List ViewHistoryPoint
deriving DecidableEq, Repr

/-- The full persisted state: a last-updated timestamp and the
ordered-by-discovery collection of posts. -/
structure Dataset where
  lastUpdated : String
  posts : List Post
deriving DecidableEq, Repr

/-- A raw discovered feed item: title, link, publish timestamp, author,
category labels.  A missing author field is `none`; an unparseable
publish date is `none`. -/
structure FeedEntry where
  title : String
  link : String
  pubDate : Option Date
  author : Option String
  categories : List String
deriving DecidableEq, Repr

/-- A feed entry that passed author/date filtering, normalized and
pending merge into the dataset. -/
structure Candidate where
  id : String
  title : String
  url : String
  date : Date
  categories : List String
deriving DecidableEq, Repr

/-- Entry-filter configuration: author name and start date
(config-time constants `AUTHOR_NAME` / `START_DATE`). -/
structure FilterConfig where
  authorName : String
  startDate : Date
deriving DecidableEq, Repr

/-! ## Entry Filter (spec §4.2) -/

/-- Strip leading and trailing whitespace from a character list. -/
def trimChars (l : List Char) : List Char :=
  ((l.dropWhile Char.isWhitespace).reverse.dropWhile Char.isWhitespace).reverse

/-- Normalize an author name for comparison: trimmed and
case-insensitive. -/
def normName (s : String) : List Char :=
  trimChars (s.data.map Char.toLower)

/-- Modelled from the spec: the Entry Filter's match test
(`fetch_blog_posts.py` is absent from the tree).  An entry matches when
its author equals the configured author name case-insensitively after
trimming and its publish date is on or after the start date; entries
missing an author or with an unparseable date fail closed. -/
def entryMatches (cfg : FilterConfig) (e : FeedEntry) : Bool :=
  match e.author, e.pubDate with
  | some a, some d =>
      decide (normName a = normName cfg.authorName ∧ Date.le cfg.startDate d)
  | _, _ => false

/-- Deduplicate a list of strings, keeping the first occurrence of each. -/
def dedupF : List String → List String
  | [] => []
  | c :: rest => c :: (dedupF rest).filter (fun x => decide (x ≠ c))

/-- Modelled from the spec: the stable identifier derived from the
canonical post URL (never from title or position). -/
def derivedId (url : String) : String := url

/-- Modelled from the spec: normalization of a matching feed entry into a
candidate post (derived identifier, title, canonical URL, publish date,
categories deduplicated). -/
def normalizeEntry (e : FeedEntry) : Candidate :=
  { id := derivedId e.link, title := e.title, url := e.link,
    date := e.pubDate.getD ⟨0, 0, 0⟩, categories := dedupF e.categories }

/-- Deduplicate candidates by canonical URL, keeping the first occurrence
by processing order. -/
def dedupByUrl : List Candidate → List Candidate
  | [] => []
  | c :: rest => c :: (dedupByUrl rest).filter (fun x => decide (x.url ≠ c.url))

/-- Candidates ordered by publish date ascending. -/
def candLe (a b : Candidate) : Prop := Date.le a.date b.date

instance (a b : Candidate) : Decidable (candLe a b) := by
  unfold candLe; infer_instance

instance : DecidableRel candLe := fun _ _ => inferInstance

instance : IsTotal Candidate candLe :=
  ⟨fun a b => Date.le_total a.date b.date⟩

instance : IsTrans Candidate candLe :=
  ⟨fun _ _ _ h₁ h₂ => Date.le_trans h₁ h₂⟩

/-- Sort candidates by publish date ascending. -/
def sortCandidates (l : List Candidate) : List Candidate :=
  List.insertionSort candLe l

/-- Modelled from the spec: the Entry Filter (`fetch_blog_posts.py` is
absent from the tree).  From the union of raw entries it keeps those
matching the configured author and start date, normalizes them, keeps
only the first occurrence per canonical URL, and orders the result by
publish date ascending. -/
def entryFilter (cfg : FilterConfig) (entries : List FeedEntry) : List Candidate :=
  sortCandidates (dedupByUrl ((entries.filter (entryMatches cfg)).map normalizeEntry))

/-- The first entry in a list that matches the filter and has the given
canonical URL. -/
def firstMatchWithUrl (cfg : FilterConfig) : List FeedEntry → String → Option FeedEntry
  | [], _ => none
  | e :: rest, u =>
      if entryMatches cfg e = true ∧ e.link = u then some e
      else firstMatchWithUrl cfg rest u

/-- The first entry in a list carrying the given link. -/
def firstEntryWithLink : List FeedEntry → String → Option FeedEntry
  | [], _ => none
  | e :: rest, u => if e.link = u then some e else firstEntryWithLink rest u

/-! ## View observations (spec §4.3) -/

/-- The View Source Adapter's result: a `url -> view_count` mapping,
possibly empty or partial. -/
abbrev Observations := List (String × Nat)

/-- Look up the observed view count for a URL, `none` when no observation
is available. -/
def lookupViews : Observations → String → Option Nat
  | [], _ => none
  | (u, v) :: rest, url => if u = url then some v else lookupViews rest url

/-! ## History Merger (spec §4.4) -/

/-- Whether a history already contains a point for the given date. -/
def hasDate (h : List ViewHistoryPoint) (d : Date) : Bool :=
  h.any (fun pt => decide (pt.date = d))

/-- Modelled from the spec: record today's observation in a history.  If a
point already exists for `d`, overwrite its `views` value; otherwise
append a new point for `d`. -/
def upsertPoint (h : List ViewHistoryPoint) (d : Date) (v : Nat) :
    List ViewHistoryPoint :=
  if hasDate h d then
    h.map (fun pt => if pt.date = d then { pt with views := v } else pt)
  else h ++ [⟨d, v⟩]

/-- The latest history point's view value (the default is only used for an
empty history). -/
def latestViews (h : List ViewHistoryPoint) (dflt : Nat) : Nat :=
  match h.getLast? with
  | some pt => pt.views
  | none => dflt

/-- Modelled from the spec: union of category label sets — existing labels
kept in order, newly discovered labels appended deduplicated; labels are
never removed. -/
def unionCats (old new : List String) : List String :=
  old ++ dedupF (new.filter (fun c => decide (c ∉ old)))

/-- Modelled from the spec: merge a fresh candidate into an existing post.
Title and categories are refreshed from the candidate (categories
unioned); when an observation exists for the URL the history point for
the run date is overwritten or appended and `views` is updated to the
latest point's value; when no observation exists, history and `views`
are left untouched. -/
def mergePost (obs : Observations) (runDate : Date) (p : Post) (c : Candidate) :
    Post :=
  match lookupViews obs p.url with
  | none =>
      { p with title := c.title, categories := unionCats p.categories c.categories }
  | some v =>
      let h := upsertPoint p.viewsHistory runDate v
      { p with title := c.title, categories := unionCats p.categories c.categories,
               views := latestViews h v, viewsHistory := h }

/-- The first candidate carrying the given canonical URL. -/
def findCand : List Candidate → String → Option Candidate
  | [], _ => none
  | c :: rest, u => if c.url = u then some c else findCand rest u

/-- Modelled from the spec: per-post merge step for a post already in the
dataset — merged with this run's candidate for its URL when one exists,
retained unchanged otherwise. -/
def updateExisting (cands : List Candidate) (obs : Observations) (runDate : Date)
    (p : Post) : Post :=
  match findCand cands p.url with
  | none => p
  | some c => mergePost obs runDate p c

/-- Whether some post in the list has the given canonical URL. -/
def hasUrl (posts : List Post) (u : String) : Bool :=
  posts.any (fun p => decide (p.url = u))

/-- Modelled from the spec: creation of a post for a newly discovered
candidate.  Its history is seeded with the single point
`{date := runDate, views := observed_or_zero}` — `0` when no observation
is available, rather than omitting the point. -/
def mkNewPost (obs : Observations) (runDate : Date) (c : Candidate) : Post :=
  let v := (lookupViews obs c.url).getD 0
  { id := c.id, title := c.title, url := c.url, date := c.date,
    categories := c.categories, views := v, viewsHistory := [⟨runDate, v⟩] }

/-- The posts created for candidates whose canonical URL has no prior
record, in candidate order. -/
def newPosts (posts : List Post) (cands : List Candidate) (obs : Observations)
    (runDate : Date) : List Post :=
  (cands.filter (fun c => !hasUrl posts c.url)).map (mkNewPost obs runDate)

/-- Modelled from the spec: the History Merger (`fetch_blog_posts.py` is
absent from the tree).  Existing posts are kept in their prior persisted
order (merged with their candidate when one exists), newly discovered
posts are appended, and `lastUpdated` is set to the run's timestamp. -/
def mergeDataset (ds : Dataset) (cands : List Candidate) (obs : Observations)
    (runDate : Date) (runTs : String) : Dataset :=
  { lastUpdated := runTs,
    posts := ds.posts.map (updateExisting cands obs runDate)
              ++ newPosts ds.posts cands obs runDate }

/-! ## Pipeline Orchestrator (spec §4.6) -/

/-- The Feed Reader's aggregate outcome: the aggregated raw entries when
at least one source succeeded, or total failure when every source was
unreachable. -/
inductive FetchResult where
  | success : List FeedEntry → FetchResult
  | totalFailure : FetchResult
deriving DecidableEq, Repr

/-- Modelled from the spec: one pipeline run.  On total fetch failure the
run falls back to re-persisting the prior dataset with only
`lastUpdated` refreshed; otherwise it filters entries and merges.  The
result is the dataset handed to `save`, or `none` in `--dry-run` mode,
which never calls `save`. -/
def runPipeline (cfg : FilterConfig) (fetch : FetchResult) (obs : Observations)
    (prior : Dataset) (runDate : Date) (runTs : String) (dryRun : Bool) :
    Option Dataset :=
  let output :=
    match fetch with
    | .totalFailure => { prior with lastUpdated := runTs }
    | .success entries =>
        mergeDataset prior (entryFilter cfg entries) obs runDate runTs
  if dryRun then none else some output

/-- The durable state after a run: the saved dataset when `save` was
called, the unchanged prior file otherwise. -/
def persistedAfter (saved : Option Dataset) (prior : Dataset) : Dataset :=
  saved.getD prior

/-! ## Dashboard (translated from src/BlogDashboard.jsx) -/

/-- A `{date, views}` history point as stored in `posts.json`; the
dashboard keeps dates as strings. -/
structure DashPoint where
  date : String
  views : Nat
deriving DecidableEq, Repr

/-- A post record as loaded from `posts.json`; `viewsHistory` may be
absent. -/
structure RawPost where
  id : String
  title : String
  url : String
  date : String
  categories : List String
  views : Nat
  viewsHistory : Option (List DashPoint)
deriving DecidableEq, Repr

/-- A post record after the dashboard's preprocessing; `viewsHistory` is
always present. -/
structure DashPost where
  id : String
  title : String
  url : String
  date : String
  categories : List String
  views : Nat
  viewsHistory : List DashPoint
deriving DecidableEq, Repr

/-- Lines 7–13 of `BlogDashboard.jsx`: spread the record and default a
missing `viewsHistory` to `[{date: post.date, views: post.views}]`. -/
def processPost (p : RawPost) : DashPost :=
  { id := p.id, title := p.title, url := p.url, date := p.date,
    categories := p.categories, views := p.views,
    viewsHistory := p.viewsHistory.getD [⟨p.date, p.views⟩] }

/-- The dashboard's `blogData.posts`: every loaded record preprocessed. -/
def blogDataPosts (raw : List RawPost) : List DashPost :=
  raw.map processPost

/-- The dashboard's `stats.totalViews`:
`posts.reduce((sum, p) => sum + p.views, 0)`. -/
def totalViews (posts : List DashPost) : Nat :=
  posts.foldl (fun sum p => sum + p.views) 0

/-- The comparator `(a, b) => b.views - a.views`: descending by views. -/
def viewsGe (a b : DashPost) : Prop := b.views ≤ a.views

instance (a b : DashPost) : Decidable (viewsGe a b) := by
  unfold viewsGe; infer_instance

instance : DecidableRel viewsGe := fun _ _ => inferInstance

instance : IsTotal DashPost viewsGe :=
  ⟨fun a b => Nat.le_total b.views a.views⟩

instance : IsTrans DashPost viewsGe :=
  ⟨fun _ _ _ h₁ h₂ => Nat.le_trans h₂ h₁⟩

/-- The dashboard's `[...blogData.posts].sort((a, b) => b.views - a.views)`. -/
def sortedByViews (posts : List DashPost) : List DashPost :=
  List.insertionSort viewsGe posts

/-- The dashboard's `stats.topPost = sortedByViews[0]`: indexing past the
end of an empty array yields no value (the code has no emptiness guard). -/
def statsTopPost (posts : List DashPost) : Option DashPost :=
  (sortedByViews posts).head?

/-- JavaScript `Math.round` applied to the non-negative rational
`num / den`: the floor of `num/den + 1/2`. -/
def jsRound (num den : Nat) : Nat :=
  (2 * num + den) / (2 * den)

/-- The dashboard's `stats.avgViews = Math.round(totalViews / posts.length)`:
a number only when `posts.length` is non-zero (`0 / 0` is `NaN` in
JavaScript; the code has no emptiness guard). -/
def statsAvgViews (posts : List DashPost) : Option Nat :=
  if posts.length = 0 then none
  else some (jsRound (totalViews posts) posts.length)

/-! ## Concrete fixtures used by the witness checks -/

/-- The repository's configured author and start date
(`AUTHOR_NAME = "Yann Debray"`, `START_DATE = 2025-09-01`). -/
def yannCfg : FilterConfig :=
  { authorName := "Yann Debray",
    startDate := { year := 2025, month := 9, day := 1 } }

/-- An entry by the configured author dated one day before the cutoff. -/
def entryAug31 : FeedEntry :=
  { title := "Pre-cutoff post", link := "https://example.org/a",
    pubDate := some { year := 2025, month := 8, day := 31 },
    author := some "Yann Debray", categories := [] }

/-- An entry by the configured author dated exactly on the cutoff. -/
def entrySep1 : FeedEntry :=
  { title := "Cutoff-day post", link := "https://example.org/b",
    pubDate := some { year := 2025, month := 9, day := 1 },
    author := some "Yann Debray", categories := ["Agentic AI"] }

/-- An entry by a different author dated after the cutoff. -/
def entryOther : FeedEntry :=
  { title := "Other author post", link := "https://example.org/c",
    pubDate := some { year := 2025, month := 10, day := 1 },
    author := some "Someone Else", categories := [] }

/-- The three filter-correctness example entries. -/
def exampleEntries : List FeedEntry := [entryAug31, entrySep1, entryOther]

/-- A matching entry as listed by the first feed source. -/
def dupEntryA : FeedEntry :=
  { title := "First occurrence", link := "https://example.org/dup",
    pubDate := some { year := 2025, month := 9, day := 2 },
    author := some "Yann Debray", categories := [] }

/-- The same post as listed by a second feed source (same canonical URL). -/
def dupEntryB : FeedEntry :=
  { title := "Second occurrence", link := "https://example.org/dup",
    pubDate := some { year := 2025, month := 9, day := 3 },
    author := some "Yann Debray", categories := [] }

/-- Two matching raw entries sharing one canonical URL. -/
def dupEntries : List FeedEntry := [dupEntryA, dupEntryB]

/-- A previously persisted post. -/
def samplePost : Post :=
  { id := "https://example.org/b", title := "Cutoff-day post",
    url := "https://example.org/b",
    date := { year := 2025, month := 9, day := 1 },
    categories := ["Agentic AI"], views := 100,
    viewsHistory := [{ date := { year := 2025, month := 9, day := 2 }, views := 100 }] }

/-- A previously persisted dataset holding one post. -/
def sampleDataset : Dataset :=
  { lastUpdated := "2025-09-02T06:00:00Z", posts := [samplePost] }

/-- A fresh candidate for the persisted post's URL carrying one newly
discovered category label. -/
def candB : Candidate :=
  { id := "https://example.org/b", title := "Cutoff-day post",
    url := "https://example.org/b",
    date := { year := 2025, month := 9, day := 1 },
    categories := ["Agentic AI", "Generative AI"] }

/-- A candidate for a URL with no prior record. -/
def candNew : Candidate :=
  { id := "https://example.org/d", title := "Newly discovered post",
    url := "https://example.org/d",
    date := { year := 2025, month := 10, day := 15 },
    categories := ["Cloud AI"] }

/-- An observation set covering only the persisted post's URL. -/
def sampleObs : Observations := [("https://example.org/b", 120)]

/-- The calendar date of the sample run. -/
def sampleRunDate : Date := { year := 2025, month := 10, day := 1 }

/-- A loaded dashboard record that has a `viewsHistory` field. -/
def rawWithHistory : RawPost :=
  { id := "p1", title := "MATLAB on Google Colab", url := "https://example.org/b",
    date := "2025-09-04", categories := ["MATLAB with Python"], views := 100,
    viewsHistory := some [{ date := "2025-09-04", views := 40 },
      { date := "2025-09-05", views := 100 }] }

/-- A loaded dashboard record lacking a `viewsHistory` field. -/
def rawWithoutHistory : RawPost :=
  { id := "p2", title := "pip and uv in MATLAB Online",
    url := "https://example.org/c", date := "2025-09-17",
    categories := ["MATLAB Online"], views := 50, viewsHistory := none }

/-- A preprocessed dashboard post. -/
def sampleDashPost : DashPost :=
  { id := "p1", title := "MATLAB on Google Colab", url := "https://example.org/b",
    date := "2025-09-04", categories := ["MATLAB with Python"], views := 100,
    viewsHistory := [{ date := "2025-09-04", views := 40 }] }

/-! ## Helper lemmas -/

theorem hasUrl_iff {posts : List Post} {u : String} :
    hasUrl posts u = true ↔ ∃ p ∈ posts, p.url = u := by
  simp [hasUrl, List.any_eq_true]

theorem mem_dedupF {x : String} {l : List String} : x ∈ dedupF l ↔ x ∈ l := by
  induction l with
  | nil => simp [dedupF]
  | cons c rest ih =>
      simp only [dedupF, List.mem_cons, List.mem_filter, decide_eq_true_eq, ih]
      by_cases hx : x = c <;> simp [hx]

theorem nodup_dedupF : ∀ l : List String, (dedupF l).Nodup
  | [] => List.nodup_nil
  | c :: rest => by
      simp only [dedupF, List.nodup_cons]
      refine ⟨fun hmem => ?_, List.Nodup.filter _ (nodup_dedupF rest)⟩
      have := (List.mem_filter.mp hmem).2
      simp at this

theorem mem_unionCats {x : String} {old new : List String} :
    x ∈ unionCats old new ↔ x ∈ old ∨ x ∈ new := by
  simp only [unionCats, List.mem_append, mem_dedupF, List.mem_filter,
    decide_eq_true_eq]
  by_cases hx : x ∈ old <;> simp [hx]

theorem unionCats_of_subset {old new : List String} (h : ∀ x ∈ new, x ∈ old) :
    unionCats old new = old := by
  have hf : new.filter (fun c => decide (c ∉ old)) = [] := by
    refine List.filter_eq_nil_iff.mpr (fun a ha => ?_)
    simp [h a ha]
  unfold unionCats
  rw [hf]
  simp [dedupF]

theorem unionCats_self (a : List String) : unionCats a a = a :=
  unionCats_of_subset (fun _ hx => hx)

theorem unionCats_left_absorb (a b : List String) :
    unionCats (unionCats a b) b = unionCats a b :=
  unionCats_of_subset (fun _ hx => mem_unionCats.mpr (Or.inr hx))

theorem nodup_unionCats {old : List String} (new : List String)
    (h : old.Nodup) : (unionCats old new).Nodup := by
  unfold unionCats
  refine List.nodup_append.mpr ⟨h, nodup_dedupF _, fun _ hx₁ hx₂ => ?_⟩
  have := (List.mem_filter.mp (mem_dedupF.mp hx₂)).2
  simp only [decide_eq_true_eq] at this
  exact this hx₁

theorem findCand_eq_none {cands : List Candidate} {u : String} :
    findCand cands u = none ↔ ∀ c ∈ cands, c.url ≠ u := by
  induction cands with
  | nil => simp [findCand]
  | cons c rest ih =>
      by_cases h : c.url = u
      · simp [findCand, h]
      · simp [findCand, h, ih]

theorem findCand_eq_some {cands : List Candidate} {u : String} {c : Candidate}
    (h : findCand cands u = some c) : c ∈ cands ∧ c.url = u := by
  induction cands with
  | nil => simp [findCand] at h
  | cons a rest ih =>
      by_cases ha : a.url = u
      · simp only [findCand, if_pos ha, Option.some.injEq] at h
        subst h
        exact ⟨List.mem_cons_self a rest, ha⟩
      · simp only [findCand, if_neg ha] at h
        obtain ⟨hmem, hurl⟩ := ih h
        exact ⟨List.mem_cons_of_mem a hmem, hurl⟩

theorem findCand_self {cands : List Candidate} {c : Candidate}
    (hmem : c ∈ cands) (hnd : (cands.map (fun x => x.url)).Nodup) :
    findCand cands c.url = some c := by
  induction cands with
  | nil => simp at hmem
  | cons a rest ih =>
      simp only [List.map_cons, List.nodup_cons] at hnd
      rcases List.mem_cons.mp hmem with h | h
      · subst h
        simp [findCand]
      · by_cases ha : a.url = c.url
        · exfalso
          apply hnd.1
          rw [ha]
          exact List.mem_map.mpr ⟨c, h, rfl⟩
        · simp only [findCand, if_neg ha]
          exact ih h hnd.2

theorem mergePost_url (obs : Observations) (d : Date) (p : Post) (c : Candidate) :
    (mergePost obs d p c).url = p.url := by
  cases h : lookupViews obs p.url <;> simp [mergePost, h]

theorem mergePost_id (obs : Observations) (d : Date) (p : Post) (c : Candidate) :
    (mergePost obs d p c).id = p.id := by
  cases h : lookupViews obs p.url <;> simp [mergePost, h]

theorem mergePost_categories (obs : Observations) (d : Date) (p : Post)
    (c : Candidate) :
    (mergePost obs d p c).categories = unionCats p.categories c.categories := by
  cases h : lookupViews obs p.url <;> simp [mergePost, h]

theorem updateExisting_url (cands : List Candidate) (obs : Observations)
    (d : Date) (p : Post) : (updateExisting cands obs d p).url = p.url := by
  cases h : findCand cands p.url <;> simp [updateExisting, h, mergePost_url]

theorem updateExisting_id (cands : List Candidate) (obs : Observations)
    (d : Date) (p : Post) : (updateExisting cands obs d p).id = p.id := by
  cases h : findCand cands p.url <;> simp [updateExisting, h, mergePost_id]

theorem mkNewPost_url (obs : Observations) (d : Date) (c : Candidate) :
    (mkNewPost obs d c).url = c.url := rfl

theorem hasDate_upsertPoint (h : List ViewHistoryPoint) (d : Date) (v : Nat) :
    hasDate (upsertPoint h d v) d = true := by
  unfold upsertPoint
  split
  · next hcase =>
      simp only [hasDate, List.any_eq_true, decide_eq_true_eq] at hcase ⊢
      obtain ⟨pt, hpt, hdate⟩ := hcase
      refine ⟨if pt.date = d then { pt with views := v } else pt,
        List.mem_map.mpr ⟨pt, hpt, rfl⟩, ?_⟩
      simp [hdate]
  · simp [hasDate]

theorem views_of_mem_upsertPoint {h : List ViewHistoryPoint} {d : Date}
    {v : Nat} {pt : ViewHistoryPoint} (hmem : pt ∈ upsertPoint h d v)
    (hd : pt.date = d) : pt.views = v := by
  unfold upsertPoint at hmem
  split at hmem
  · next hcase =>
      obtain ⟨pt₀, hpt₀, heq⟩ := List.mem_map.mp hmem
      by_cases h₀ : pt₀.date = d
      · rw [← heq]
        simp [h₀]
      · rw [← heq] at hd
        simp [h₀] at hd
  · next hcase =>
      rcases List.mem_append.mp hmem with h₁ | h₁
      · exfalso
        apply hcase
        simp only [hasDate, List.any_eq_true, decide_eq_true_eq]
        exact ⟨pt, h₁, hd⟩
      · simp only [List.mem_singleton] at h₁
        rw [h₁]

theorem upsertPoint_idem (h : List ViewHistoryPoint) (d : Date) (v : Nat) :
    upsertPoint (upsertPoint h d v) d v = upsertPoint h d v := by
  conv_lhs => rw [upsertPoint]
  rw [if_pos (hasDate_upsertPoint h d v)]
  have hpt : ∀ pt ∈ upsertPoint h d v,
      (if pt.date = d then { pt with views := v } else pt) = pt := by
    intro pt hmem
    by_cases hd' : pt.date = d
    · have hv := views_of_mem_upsertPoint hmem hd'
      cases pt
      simp_all
    · simp [hd']
  rw [List.map_congr_left hpt, List.map_id']

theorem mergePost_idem (obs : Observations) (d : Date) (p : Post)
    (c : Candidate) :
    mergePost obs d (mergePost obs d p c) c = mergePost obs d p c := by
  cases p with
  | mk id title url date cats views vh =>
      cases hlk : lookupViews obs url with
      | none =>
          simp [mergePost, hlk, unionCats_left_absorb]
      | some v =>
          simp [mergePost, hlk, upsertPoint_idem, unionCats_left_absorb]

theorem updateExisting_idem (cands : List Candidate) (obs : Observations)
    (d : Date) (p : Post) :
    updateExisting cands obs d (updateExisting cands obs d p)
      = updateExisting cands obs d p := by
  cases hf : findCand cands p.url with
  | none => simp [updateExisting, hf]
  | some c =>
      have hu : (mergePost obs d p c).url = p.url := mergePost_url obs d p c
      simp [updateExisting, hf, hu, mergePost_idem]

theorem mergePost_mkNewPost (obs : Observations) (d : Date) (c : Candidate) :
    mergePost obs d (mkNewPost obs d c) c = mkNewPost obs d c := by
  cases hlk : lookupViews obs c.url with
  | none => simp [mergePost, mkNewPost, hlk, unionCats_self]
  | some v =>
      simp [mergePost, mkNewPost, hlk, unionCats_self, upsertPoint, hasDate,
        latestViews]

theorem hasUrl_mergedPosts {posts : List Post} {cands : List Candidate}
    {obs : Observations} {d : Date} {c : Candidate} (hc : c ∈ cands) :
    hasUrl (posts.map (updateExisting cands obs d)
      ++ newPosts posts cands obs d) c.url = true := by
  rw [hasUrl_iff]
  by_cases hp : hasUrl posts c.url = true
  · obtain ⟨p, hmem, hurl⟩ := hasUrl_iff.mp hp
    refine ⟨updateExisting cands obs d p,
      List.mem_append_left _ (List.mem_map.mpr ⟨p, hmem, rfl⟩), ?_⟩
    rw [updateExisting_url, hurl]
  · refine ⟨mkNewPost obs d c, List.mem_append_right _ ?_, mkNewPost_url obs d c⟩
    unfold newPosts
    refine List.mem_map.mpr ⟨c, List.mem_filter.mpr ⟨hc, ?_⟩, rfl⟩
    simp only [Bool.not_eq_true] at hp
    simp [hp]

theorem newPosts_merged_eq_nil {posts : List Post} {cands : List Candidate}
    {obs : Observations} {d : Date} :
    newPosts (posts.map (updateExisting cands obs d)
      ++ newPosts posts cands obs d) cands obs d = [] := by
  conv_lhs => rw [newPosts]
  rw [List.map_eq_nil_iff]
  refine List.filter_eq_nil_iff.mpr (fun c hc => ?_)
  simp [hasUrl_mergedPosts hc]

/-! ## Claim theorems: pipeline fallback and dry-run (C2, C5) -/

/-- C2: if the Feed Reader reports total failure, the pipeline's saved
output dataset equals the prior persisted dataset in every field — the
very same post list — except `lastUpdated`, which is set to the run's
timestamp. -/
theorem fallback_preserves_dataset (cfg : FilterConfig) (obs : Observations)
    (prior : Dataset) (runDate : Date) (runTs : String) :
    runPipeline cfg FetchResult.totalFailure obs prior runDate runTs false
      = some { lastUpdated := runTs, posts := prior.posts } := rfl

/-- C5: a run in dry-run (preview-only) mode never calls `save` — it
produces no dataset to persist — so the persisted dataset after the run
is exactly the prior one, for every input state. -/
theorem dryRun_leaves_file_unchanged (cfg : FilterConfig) (fetch : FetchResult)
    (obs : Observations) (prior : Dataset) (runDate : Date) (runTs : String) :
    runPipeline cfg fetch obs prior runDate runTs true = none ∧
      persistedAfter (runPipeline cfg fetch obs prior runDate runTs true) prior
        = prior :=
  ⟨rfl, rfl⟩

/-! ## Claim theorems: History Merger (C1, C3, C6, C7) -/

/-- C1: merging the same candidate/observation inputs into a dataset a
second time with the same run date yields a dataset identical to the
result of the first merge — the run-date history point is overwritten
with the same value, not appended a second time. -/
theorem merge_same_day_idempotent (ds : Dataset) (cands : List Candidate)
    (obs : Observations) (runDate : Date) (runTs : String)
    (hnd : (cands.map (fun c => c.url)).Nodup) :
    mergeDataset (mergeDataset ds cands obs runDate runTs) cands obs runDate runTs
      = mergeDataset ds cands obs runDate runTs := by
  have hnew : ∀ c ∈ cands.filter (fun c => !hasUrl ds.posts c.url),
      updateExisting cands obs runDate (mkNewPost obs runDate c)
        = mkNewPost obs runDate c := by
    intro c hc
    have hcc : c ∈ cands := (List.mem_filter.mp hc).1
    have hfind : findCand cands (mkNewPost obs runDate c).url = some c := by
      rw [mkNewPost_url]
      exact findCand_self hcc hnd
    simp [updateExisting, hfind, mergePost_mkNewPost]
  unfold mergeDataset
  dsimp only
  rw [newPosts_merged_eq_nil, List.append_nil, List.map_append, List.map_map]
  congr 1
  congr 1
  · exact List.map_congr_left (fun p _ => updateExisting_idem cands obs runDate p)
  · conv_lhs => rw [newPosts]
    conv_rhs => rw [newPosts]
    rw [List.map_map]
    exact List.map_congr_left hnew

/-- Witness: the same-day idempotence theorem applied to the concrete
sample dataset, candidates and observations. -/
theorem merge_same_day_idempotent_check :
    (([candB, candNew].map (fun c => c.url)).Nodup) ∧
      mergeDataset
          (mergeDataset sampleDataset [candB, candNew] sampleObs sampleRunDate "t2")
          [candB, candNew] sampleObs sampleRunDate "t2"
        = mergeDataset sampleDataset [candB, candNew] sampleObs sampleRunDate "t2" :=
  ⟨by decide,
    merge_same_day_idempotent sampleDataset [candB, candNew] sampleObs
      sampleRunDate "t2" (by decide)⟩

/-- C3: every post present in the persisted dataset before the merge is
still present in the merged output (the pipeline never deletes a post),
and a post whose URL has no candidate this run is retained unchanged. -/
theorem merge_is_additive (ds : Dataset) (cands : List Candidate)
    (obs : Observations) (runDate : Date) (runTs : String) (p : Post)
    (hp : p ∈ ds.posts) :
    (∃ q ∈ (mergeDataset ds cands obs runDate runTs).posts,
        q.url = p.url ∧ q.id = p.id) ∧
      ((∀ c ∈ cands, c.url ≠ p.url) →
        p ∈ (mergeDataset ds cands obs runDate runTs).posts) := by
  constructor
  · refine ⟨updateExisting cands obs runDate p, ?_,
      updateExisting_url cands obs runDate p, updateExisting_id cands obs runDate p⟩
    exact List.mem_append_left _ (List.mem_map.mpr ⟨p, hp, rfl⟩)
  · intro hnone
    have hfc : findCand cands p.url = none := findCand_eq_none.mpr hnone
    have hupd : updateExisting cands obs runDate p = p := by
      simp [updateExisting, hfc]
    have hmem : updateExisting cands obs runDate p
        ∈ (mergeDataset ds cands obs runDate runTs).posts :=
      List.mem_append_left _ (List.mem_map.mpr ⟨p, hp, rfl⟩)
    rwa [hupd] at hmem

/-- Witness: the additive-merge theorem applied to the concrete sample
dataset, with a candidate set missing the persisted post's URL. -/
theorem merge_is_additive_check :
    samplePost ∈ sampleDataset.posts ∧
      ((∃ q ∈ (mergeDataset sampleDataset [candNew] [] sampleRunDate "t2").posts,
          q.url = samplePost.url ∧ q.id = samplePost.id) ∧
        ((∀ c ∈ [candNew], c.url ≠ samplePost.url) →
          samplePost ∈ (mergeDataset sampleDataset [candNew] [] sampleRunDate "t2").posts)) :=
  ⟨by decide,
    merge_is_additive sampleDataset [candNew] [] sampleRunDate "t2" samplePost
      (by decide)⟩

/-- C6: a candidate whose URL has no prior record and no observation this
run is created with current views `0` and the single seeded history
point for the run date with `views = 0` — the point is recorded, not
omitted. -/
theorem new_post_without_observation_seeds_zero (ds : Dataset)
    (cands : List Candidate) (obs : Observations) (runDate : Date)
    (runTs : String) (c : Candidate) (hc : c ∈ cands)
    (hnew : hasUrl ds.posts c.url = false)
    (hobs : lookupViews obs c.url = none) :
    ∃ q ∈ (mergeDataset ds cands obs runDate runTs).posts,
      q.url = c.url ∧ q.views = 0 ∧
        q.viewsHistory = [{ date := runDate, views := 0 }] := by
  refine ⟨mkNewPost obs runDate c, ?_, mkNewPost_url obs runDate c, ?_, ?_⟩
  · refine List.mem_append_right _ ?_
    unfold newPosts
    refine List.mem_map.mpr ⟨c, List.mem_filter.mpr ⟨hc, ?_⟩, rfl⟩
    simp [hnew]
  · simp [mkNewPost, hobs]
  · simp [mkNewPost, hobs]

/-- Witness: the zero-view seeding theorem applied to the concrete
candidate with no prior record and no observation. -/
theorem new_post_without_observation_seeds_zero_check :
    (candNew ∈ [candB, candNew] ∧ hasUrl sampleDataset.posts candNew.url = false ∧
        lookupViews sampleObs candNew.url = none) ∧
      ∃ q ∈ (mergeDataset sampleDataset [candB, candNew] sampleObs sampleRunDate "t2").posts,
        q.url = candNew.url ∧ q.views = 0 ∧
          q.viewsHistory = [{ date := sampleRunDate, views := 0 }] :=
  ⟨⟨by decide, by decide, by decide⟩,
    new_post_without_observation_seeds_zero sampleDataset [candB, candNew]
      sampleObs sampleRunDate "t2" candNew (by decide) (by decide) (by decide)⟩

/-- C7: when an existing post has a fresh candidate for its canonical URL,
the merged post's category set is the deduplicated union of the
persisted and candidate categories, and no persisted category is ever
removed by the merge. -/
theorem merge_unions_categories (ds : Dataset) (cands : List Candidate)
    (obs : Observations) (runDate : Date) (runTs : String) (p : Post)
    (c : Candidate) (hp : p ∈ ds.posts)
    (hfc : findCand cands p.url = some c) :
    ∃ q ∈ (mergeDataset ds cands obs runDate runTs).posts,
      q.url = p.url ∧
        (∀ x, x ∈ q.categories ↔ x ∈ p.categories ∨ x ∈ c.categories) ∧
        (∀ x ∈ p.categories, x ∈ q.categories) ∧
        (p.categories.Nodup → q.categories.Nodup) := by
  have hq : updateExisting cands obs runDate p = mergePost obs runDate p c := by
    simp [updateExisting, hfc]
  refine ⟨updateExisting cands obs runDate p,
    List.mem_append_left _ (List.mem_map.mpr ⟨p, hp, rfl⟩),
    updateExisting_url cands obs runDate p, ?_, ?_, ?_⟩
  · intro x
    rw [hq, mergePost_categories]
    exact mem_unionCats
  · intro x hx
    rw [hq, mergePost_categories]
    exact mem_unionCats.mpr (Or.inl hx)
  · intro hnd
    rw [hq, mergePost_categories]
    exact nodup_unionCats _ hnd

/-- Witness: the category-union theorem applied to the spec's example —
persisted categories `["Agentic AI"]`, candidate categories
`["Agentic AI", "Generative AI"]`. -/
theorem merge_unions_categories_check :
    (samplePost ∈ sampleDataset.posts ∧
        findCand [candB] samplePost.url = some candB) ∧
      ∃ q ∈ (mergeDataset sampleDataset [candB] sampleObs sampleRunDate "t2").posts,
        q.url = samplePost.url ∧
          (∀ x, x ∈ q.categories ↔ x ∈ samplePost.categories ∨ x ∈ candB.categories) ∧
          (∀ x ∈ samplePost.categories, x ∈ q.categories) ∧
          (samplePost.categories.Nodup → q.categories.Nodup) :=
  ⟨⟨by decide, by decide⟩,
    merge_unions_categories sampleDataset [candB] sampleObs sampleRunDate "t2"
      samplePost candB (by decide) (by decide)⟩

/-! ## Entry Filter lemmas -/

theorem normalizeEntry_url (e : FeedEntry) : (normalizeEntry e).url = e.link := rfl

theorem mem_of_mem_dedupByUrl {c : Candidate} {l : List Candidate}
    (h : c ∈ dedupByUrl l) : c ∈ l := by
  induction l with
  | nil => simp [dedupByUrl] at h
  | cons a rest ih =>
      simp only [dedupByUrl, List.mem_cons] at h
      rcases h with h | h
      · exact h ▸ List.mem_cons_self a rest
      · exact List.mem_cons_of_mem a (ih (List.mem_filter.mp h).1)

theorem nodup_urls_dedupByUrl : ∀ l : List Candidate,
    ((dedupByUrl l).map (fun c => c.url)).Nodup
  | [] => by simp [dedupByUrl]
  | a :: rest => by
      simp only [dedupByUrl, List.map_cons, List.nodup_cons]
      constructor
      · intro hmem
        obtain ⟨x, hx, hurl⟩ := List.mem_map.mp hmem
        have hne := (List.mem_filter.mp hx).2
        simp only [decide_eq_true_eq] at hne
        exact hne hurl
      · exact List.Nodup.sublist
          (List.Sublist.map _ (List.filter_sublist (dedupByUrl rest)))
          (nodup_urls_dedupByUrl rest)

theorem findCand_of_mem_dedupByUrl {c : Candidate} {l : List Candidate}
    (h : c ∈ dedupByUrl l) : findCand l c.url = some c := by
  induction l with
  | nil => simp [dedupByUrl] at h
  | cons a rest ih =>
      simp only [dedupByUrl, List.mem_cons] at h
      rcases h with h | h
      · subst h
        simp [findCand]
      · have hne := (List.mem_filter.mp h).2
        simp only [decide_eq_true_eq] at hne
        simp only [findCand]
        rw [if_neg (fun heq => hne heq.symm)]
        exact ih (List.mem_filter.mp h).1

theorem dedupByUrl_covers {x : Candidate} {l : List Candidate} (h : x ∈ l) :
    ∃ c ∈ dedupByUrl l, c.url = x.url := by
  induction l with
  | nil => simp at h
  | cons a rest ih =>
      rcases List.mem_cons.mp h with h' | h'
      · exact ⟨a, by simp [dedupByUrl], by rw [h']⟩
      · obtain ⟨c, hc, hurl⟩ := ih h'
        by_cases hca : c.url = a.url
        · refine ⟨a, by simp [dedupByUrl], ?_⟩
          rw [← hurl, hca]
        · refine ⟨c, ?_, hurl⟩
          simp only [dedupByUrl, List.mem_cons]
          right
          exact List.mem_filter.mpr ⟨hc, by simp [hca]⟩

theorem findCand_map_normalizeEntry (l : List FeedEntry) (u : String) :
    findCand (l.map normalizeEntry) u
      = (firstEntryWithLink l u).map normalizeEntry := by
  induction l with
  | nil => simp [findCand, firstEntryWithLink]
  | cons e rest ih =>
      by_cases he : e.link = u <;>
        simp [findCand, firstEntryWithLink, normalizeEntry_url, he, ih]

theorem firstMatchWithUrl_eq_filter (cfg : FilterConfig)
    (entries : List FeedEntry) (u : String) :
    firstMatchWithUrl cfg entries u
      = firstEntryWithLink (entries.filter (entryMatches cfg)) u := by
  induction entries with
  | nil => simp [firstMatchWithUrl, firstEntryWithLink]
  | cons e rest ih =>
      by_cases hm : entryMatches cfg e = true
      · by_cases hl : e.link = u
        · simp [firstMatchWithUrl, firstEntryWithLink, List.filter_cons, hm, hl]
        · simp [firstMatchWithUrl, firstEntryWithLink, List.filter_cons, hm, hl, ih]
      · simp [firstMatchWithUrl, List.filter_cons, hm, ih]

theorem mem_sortCandidates {c : Candidate} {l : List Candidate} :
    c ∈ sortCandidates l ↔ c ∈ l :=
  List.mem_insertionSort candLe

theorem entryFilter_urls_nodup (cfg : FilterConfig) (entries : List FeedEntry) :
    ((entryFilter cfg entries).map (fun c => c.url)).Nodup := by
  have hperm := List.perm_insertionSort candLe
    (dedupByUrl ((entries.filter (entryMatches cfg)).map normalizeEntry))
  exact ((hperm.map (fun c => c.url)).nodup_iff).mpr (nodup_urls_dedupByUrl _)

theorem entryFilter_first_occurrence {cfg : FilterConfig}
    {entries : List FeedEntry} {c : Candidate} (hc : c ∈ entryFilter cfg entries) :
    ∃ e, firstMatchWithUrl cfg entries c.url = some e ∧ c = normalizeEntry e := by
  have hc' := mem_sortCandidates.mp hc
  have hfind := findCand_of_mem_dedupByUrl hc'
  rw [findCand_map_normalizeEntry] at hfind
  cases he : firstEntryWithLink (entries.filter (entryMatches cfg)) c.url with
  | none =>
      rw [he] at hfind
      simp at hfind
  | some e =>
      rw [he] at hfind
      simp only [Option.map_some', Option.some.injEq] at hfind
      refine ⟨e, ?_, hfind.symm⟩
      rw [firstMatchWithUrl_eq_filter]
      exact he

/-! ## Claim theorems: Entry Filter (C4, C8) -/

/-- C4 as stated is refuted at a concrete input: both duplicate-URL raw
entries match the author and date criteria, yet the Entry Filter's
output does not contain a candidate for the second occurrence — the
per-URL deduplication of spec §4.2 removes it. -/
theorem entryFilter_keeps_all_matching_false :
    ¬ (∀ e ∈ dupEntries, entryMatches yannCfg e = true →
        ∃ c ∈ entryFilter yannCfg dupEntries,
          c.title = e.title ∧ c.url = e.link) := by
  decide

/-- C4 (amended): the Entry Filter's output consists exactly of the
normalized entries matching the configured author (case-insensitive,
trimmed) and start date — with at most one candidate per canonical URL,
each being the first matching occurrence of its URL by processing
order — ordered by publish date ascending; entries missing an author
or with an unparseable date are excluded; and on the concrete examples,
the author's 2025-08-31 entry and the other author's 2025-10-01 entry
are excluded while the author's 2025-09-01 entry is included. -/
theorem entryFilter_spec (cfg : FilterConfig) (entries : List FeedEntry) :
    (∀ c ∈ entryFilter cfg entries,
        ∃ e ∈ entries, entryMatches cfg e = true ∧ c = normalizeEntry e) ∧
      (∀ e ∈ entries, entryMatches cfg e = true →
        ∃ c ∈ entryFilter cfg entries, c.url = e.link) ∧
      ((entryFilter cfg entries).map (fun c => c.url)).Nodup ∧
      (∀ c ∈ entryFilter cfg entries,
        ∃ e, firstMatchWithUrl cfg entries c.url = some e ∧
          c = normalizeEntry e) ∧
      List.Sorted candLe (entryFilter cfg entries) ∧
      (∀ e ∈ entries, e.author = none ∨ e.pubDate = none →
        entryMatches cfg e = false) ∧
      entryFilter yannCfg exampleEntries = [normalizeEntry entrySep1] := by
  refine ⟨?_, ?_, entryFilter_urls_nodup cfg entries,
    fun c hc => entryFilter_first_occurrence hc,
    List.sorted_insertionSort candLe _, ?_, by decide⟩
  · intro c hc
    have hc' := mem_sortCandidates.mp hc
    have hmem := mem_of_mem_dedupByUrl hc'
    obtain ⟨e, he, heq⟩ := List.mem_map.mp hmem
    obtain ⟨hee, hm⟩ := List.mem_filter.mp he
    exact ⟨e, hee, hm, heq.symm⟩
  · intro e he hm
    have hL : normalizeEntry e
        ∈ (entries.filter (entryMatches cfg)).map normalizeEntry :=
      List.mem_map.mpr ⟨e, List.mem_filter.mpr ⟨he, hm⟩, rfl⟩
    obtain ⟨c, hc, hurl⟩ := dedupByUrl_covers hL
    refine ⟨c, mem_sortCandidates.mpr hc, ?_⟩
    rw [hurl]
    exact normalizeEntry_url e
  · intro e _ hcase
    rcases hcase with h | h <;> simp [entryMatches, h]

/-- Witness: the amended filter theorem applied to the cutoff-day example
entry, which matches and is represented in the output. -/
theorem entryFilter_spec_check :
    (entrySep1 ∈ exampleEntries ∧ entryMatches yannCfg entrySep1 = true) ∧
      ∃ c ∈ entryFilter yannCfg exampleEntries, c.url = entrySep1.link :=
  ⟨⟨by decide, by decide⟩,
    (entryFilter_spec yannCfg exampleEntries).2.1 entrySep1 (by decide) (by decide)⟩

/-- C8: canonical URLs identify posts uniquely — the Entry Filter's output
has pairwise-distinct URLs and each of its candidates is the first
matching occurrence of its URL by processing order, and the merged
dataset has exactly one post per canonical URL whenever the prior
dataset and candidate set do. -/
theorem url_uniqueness_invariant (cfg : FilterConfig) (entries : List FeedEntry)
    (ds : Dataset) (cands : List Candidate) (obs : Observations)
    (runDate : Date) (runTs : String)
    (hds : (ds.posts.map (fun p => p.url)).Nodup)
    (hcands : (cands.map (fun c => c.url)).Nodup) :
    ((entryFilter cfg entries).map (fun c => c.url)).Nodup ∧
      ((mergeDataset ds cands obs runDate runTs).posts.map (fun p => p.url)).Nodup ∧
      (∀ c ∈ entryFilter cfg entries,
        ∃ e, firstMatchWithUrl cfg entries c.url = some e ∧ c = normalizeEntry e) := by
  refine ⟨entryFilter_urls_nodup cfg entries, ?_,
    fun c hc => entryFilter_first_occurrence hc⟩
  · have hup : (ds.posts.map (updateExisting cands obs runDate)).map (fun p => p.url)
        = ds.posts.map (fun p => p.url) := by
      rw [List.map_map]
      exact List.map_congr_left (fun p _ => updateExisting_url cands obs runDate p)
    have hnewUrls : (newPosts ds.posts cands obs runDate).map (fun p => p.url)
        = (cands.filter (fun c => !hasUrl ds.posts c.url)).map (fun c => c.url) := by
      unfold newPosts
      rw [List.map_map]
      exact List.map_congr_left (fun c _ => mkNewPost_url obs runDate c)
    show ((ds.posts.map (updateExisting cands obs runDate)
        ++ newPosts ds.posts cands obs runDate).map (fun p => p.url)).Nodup
    rw [List.map_append, hup, hnewUrls]
    refine List.nodup_append.mpr ⟨hds, ?_, ?_⟩
    · exact List.Nodup.sublist
        (List.Sublist.map _ (List.filter_sublist cands)) hcands
    · intro u hu₁ hu₂
      obtain ⟨p, hp, hpu⟩ := List.mem_map.mp hu₁
      obtain ⟨c, hcf, hcu⟩ := List.mem_map.mp hu₂
      have hfl := (List.mem_filter.mp hcf).2
      have hhas : hasUrl ds.posts c.url = true :=
        hasUrl_iff.mpr ⟨p, hp, by rw [hpu, hcu]⟩
      rw [hhas] at hfl
      simp at hfl

/-- Witness: the URL-uniqueness theorem applied to the concrete dataset,
candidates and the duplicate-URL entry pair. -/
theorem url_uniqueness_invariant_check :
    ((sampleDataset.posts.map (fun p => p.url)).Nodup ∧
        ([candB, candNew].map (fun c => c.url)).Nodup) ∧
      (((entryFilter yannCfg dupEntries).map (fun c => c.url)).Nodup ∧
        ((mergeDataset sampleDataset [candB, candNew] sampleObs sampleRunDate "t2").posts.map
            (fun p => p.url)).Nodup ∧
        (∀ c ∈ entryFilter yannCfg dupEntries,
          ∃ e, firstMatchWithUrl yannCfg dupEntries c.url = some e ∧
            c = normalizeEntry e)) :=
  ⟨⟨by decide, by decide⟩,
    url_uniqueness_invariant yannCfg dupEntries sampleDataset [candB, candNew]
      sampleObs sampleRunDate "t2" (by decide) (by decide)⟩

/-! ## Claim theorems: dashboard (C9, C10) -/

/-- C9: the dashboard's preprocessing leaves a record's `viewsHistory`
unchanged when the field is present, substitutes the single-point
history `[{date: post.date, views: post.views}]` when it is absent,
and passes every other field through unchanged. -/
theorem processPost_spec (p : RawPost) :
    (processPost p).id = p.id ∧ (processPost p).title = p.title ∧
      (processPost p).url = p.url ∧ (processPost p).date = p.date ∧
      (processPost p).categories = p.categories ∧
      (processPost p).views = p.views ∧
      (∀ h, p.viewsHistory = some h → (processPost p).viewsHistory = h) ∧
      (p.viewsHistory = none →
        (processPost p).viewsHistory = [{ date := p.date, views := p.views }]) := by
  refine ⟨rfl, rfl, rfl, rfl, rfl, rfl, ?_, ?_⟩
  · intro h hh
    simp [processPost, hh]
  · intro hh
    simp [processPost, hh]

/-- Witness: the preprocessing theorem applied to a concrete record that
has a two-point history, which passes through unchanged. -/
theorem processPost_spec_check :
    rawWithHistory.viewsHistory
        = some [{ date := "2025-09-04", views := 40 },
            { date := "2025-09-05", views := 100 }] ∧
      (processPost rawWithHistory).viewsHistory
        = [{ date := "2025-09-04", views := 40 },
            { date := "2025-09-05", views := 100 }] :=
  ⟨rfl, (processPost_spec rawWithHistory).2.2.2.2.2.2.1 _ rfl⟩

theorem sortedByViews_eq_nil_iff {posts : List DashPost} :
    sortedByViews posts = [] ↔ posts = [] := by
  constructor
  · intro h
    have hlen := List.length_insertionSort viewsGe posts
    rw [show List.insertionSort viewsGe posts = sortedByViews posts from rfl,
      h] at hlen
    exact List.length_eq_zero.mp hlen.symm
  · intro h
    rw [h]
    rfl

/-- C10: the dashboard's summary statistics are well-defined exactly when
the posts list is non-empty — `sortedByViews[0]` exists (so
`stats.topPost.views` can be rendered) and `avgViews` is a number iff
there is at least one post; the code has no guard for the empty list. -/
theorem stats_defined_iff_posts_nonempty (posts : List DashPost) :
    ((statsTopPost posts).isSome = true ↔ posts ≠ []) ∧
      ((statsAvgViews posts).isSome = true ↔ posts ≠ []) := by
  constructor
  · rw [statsTopPost, Option.isSome_iff_ne_none, ne_eq, List.head?_eq_none_iff,
      sortedByViews_eq_nil_iff]
  · by_cases h : posts.length = 0
    · simp [statsAvgViews, h, List.length_eq_zero.mp h]
    · simp only [statsAvgViews, if_neg h, Option.isSome_some, true_iff]
      exact fun hnil => h (by simp [hnil])

/-- Witness: the statistics theorem applied to a one-element posts list. -/
theorem stats_defined_iff_posts_nonempty_check :
    ([sampleDashPost] ≠ []) ∧ (statsTopPost [sampleDashPost]).isSome = true :=
  ⟨by decide,
    ((stats_defined_iff_posts_nonempty [sampleDashPost]).1).mpr (by decide)⟩
